import Mathlib

/-!
Verification of the SHA-512 halo2 compression arithmetization.

This file embeds, as executable Lean definitions, the bit-level helper
functions and structures of `src/sha512/table16/compression.rs` and the gate
polynomials of `src/sha512/table64/compression/compression_gates.rs`, and
proves properties of them. Where helper code of the repository is not part of
the provided sources (the `util` module, the IV/round-constant tables, the
message-schedule and witness-generation subregions), the corresponding
definitions are modelled from the specification and marked as such in their
doc comments.
-/

set_option maxRecDepth 10000

/-- Little-endian bits to natural number, the model of `util::lebs2ip`:
the value of a little-endian bit list. -/
def lebs2ip : List Bool → Nat
  | [] => 0
  | b :: t => (if b then 1 else 0) + 2 * lebs2ip t

/-- Natural number to `n` little-endian bits, the model of `util::i2lebsp`. -/
def i2lebsp : Nat → Nat → List Bool
  | 0, _ => []
  | n + 1, x => (x % 2 == 1) :: i2lebsp n (x / 2)

/-- Interleaving a bit list with `false` at every odd position: the spread
form of a dense bit list, as produced by the `SpreadVar` lookup pairs. -/
def spreadBits : List Bool → List Bool
  | [] => []
  | b :: t => b :: false :: spreadBits t

/-- The spread value of a 64-bit word: each dense bit `i` is placed at bit
position `2*i` of a 128-bit value. -/
def spread (x : Nat) : Nat := lebs2ip (spreadBits (i2lebsp 64 x))

/-- The elements of a list at even indices (index 0, 2, 4, ...). -/
def evens : List Bool → List Bool
  | [] => []
  | [b] => [b]
  | b :: _ :: t => b :: evens t

/-- A contiguous sub-range `[s, e)` of a bit list, as used by the
`pieces` constructors via Rust range indexing `val[s..e]`. -/
def sliceBits (l : List Bool) (s e : Nat) : List Bool := (l.drop s).take (e - s)

theorem add_two_mul_mod (a v m : Nat) (ha : a < 2) (hm : 0 < m) :
    (a + 2 * v) % (2 * m) = a + 2 * (v % m) := by
  conv_lhs => rw [← Nat.div_add_mod v m]
  rw [show a + 2 * (m * (v / m) + v % m) = a + 2 * (v % m) + 2 * m * (v / m) by ring]
  rw [Nat.add_mul_mod_self_left]
  exact Nat.mod_eq_of_lt (by have := Nat.mod_lt v hm; omega)

theorem add_two_mul_div (a v m : Nat) (ha : a < 2) :
    (a + 2 * v) / (2 * m) = v / m := by
  rw [← Nat.div_div_eq_div_mul]
  congr 1
  omega

theorem lebs2ip_append (l₁ l₂ : List Bool) :
    lebs2ip (l₁ ++ l₂) = lebs2ip l₁ + 2 ^ l₁.length * lebs2ip l₂ := by
  induction l₁ with
  | nil => simp [lebs2ip]
  | cons b t ih =>
    simp only [List.cons_append, lebs2ip, List.append_eq, ih, List.length_cons, pow_succ]
    ring

theorem lebs2ip_lt (l : List Bool) : lebs2ip l < 2 ^ l.length := by
  induction l with
  | nil => simp [lebs2ip]
  | cons b t ih =>
    simp only [lebs2ip, List.length_cons, pow_succ]
    cases b <;> simp <;> omega

theorem length_i2lebsp (n x : Nat) : (i2lebsp n x).length = n := by
  induction n generalizing x with
  | zero => rfl
  | succ k ih => simp [i2lebsp, ih]

theorem lebs2ip_i2lebsp (n x : Nat) (h : x < 2 ^ n) :
    lebs2ip (i2lebsp n x) = x := by
  induction n generalizing x with
  | zero => simp at h; simp [h, i2lebsp, lebs2ip]
  | succ k ih =>
    have hx : x / 2 < 2 ^ k := by
      rw [Nat.div_lt_iff_lt_mul (by omega : 0 < 2)]
      rw [pow_succ] at h; omega
    simp only [i2lebsp, lebs2ip, ih (x / 2) hx]
    rcases Nat.mod_two_eq_zero_or_one x with h2 | h2 <;> simp [h2] <;> omega

theorem i2lebsp_lebs2ip (l : List Bool) : i2lebsp l.length (lebs2ip l) = l := by
  induction l with
  | cons b t ih =>
    have h2 : ((if b then 1 else 0) + 2 * lebs2ip t) / 2 = lebs2ip t := by
      cases b <;> simp <;> omega
    have h1 : (((if b then 1 else 0) + 2 * lebs2ip t) % 2 == 1) = b := by
      cases b <;> simp [Nat.mul_mod_right, Nat.add_mul_mod_self_left]
    simp only [List.length_cons, i2lebsp, lebs2ip, h1, h2, ih]
  | nil => rfl

theorem lebs2ip_take (l : List Bool) (n : Nat) :
    lebs2ip (l.take n) = lebs2ip l % 2 ^ n := by
  induction n generalizing l with
  | zero => simp [lebs2ip, Nat.mod_one]
  | succ k ih =>
    cases l with
    | nil => simp [lebs2ip]
    | cons b t =>
      have hb : (if b then 1 else 0) < 2 := by cases b <;> simp
      simp only [List.take_succ_cons, lebs2ip, ih t, pow_succ, Nat.mul_comm (2 ^ k) 2]
      rw [add_two_mul_mod _ _ _ hb (pow_pos (by omega : (0:Nat) < 2) k)]

theorem lebs2ip_drop (l : List Bool) (n : Nat) :
    lebs2ip (l.drop n) = lebs2ip l / 2 ^ n := by
  induction n generalizing l with
  | zero => simp
  | succ k ih =>
    cases l with
    | nil => simp [lebs2ip]
    | cons b t =>
      have hb : (if b then 1 else 0) < 2 := by cases b <;> simp
      simp only [List.drop_succ_cons, ih t, lebs2ip, pow_succ, Nat.mul_comm (2 ^ k) 2]
      rw [add_two_mul_div _ _ _ hb]

theorem spreadBits_append (l₁ l₂ : List Bool) :
    spreadBits (l₁ ++ l₂) = spreadBits l₁ ++ spreadBits l₂ := by
  induction l₁ with
  | nil => rfl
  | cons b t ih => simp [spreadBits, ih]

theorem length_spreadBits (l : List Bool) : (spreadBits l).length = 2 * l.length := by
  induction l with
  | nil => rfl
  | cons b t ih => simp [spreadBits, ih]; omega

theorem sliceBits_append (l : List Bool) (a b c : Nat) (h1 : a ≤ b) (h2 : b ≤ c) :
    sliceBits l a b ++ sliceBits l b c = sliceBits l a c := by
  have hd : l.drop b = (l.drop a).drop (b - a) := by
    rw [List.drop_drop]; congr 1; omega
  rw [sliceBits, sliceBits, sliceBits, hd, ← List.take_add]
  congr 1; omega

theorem length_sliceBits (l : List Bool) (a b : Nat) (hb : b ≤ l.length) (hab : a ≤ b) :
    (sliceBits l a b).length = b - a := by
  simp [sliceBits, List.length_take, List.length_drop]
  omega

theorem sliceBits_zero_length (l : List Bool) : sliceBits l 0 l.length = l := by
  simp [sliceBits]

theorem testBit_lebs2ip (l : List Bool) (i : Nat) :
    (lebs2ip l).testBit i = l.getD i false := by
  induction l generalizing i with
  | nil => simp [lebs2ip]
  | cons b t ih =>
    cases i with
    | zero =>
      simp only [lebs2ip, Nat.testBit_zero, List.getD_cons_zero]
      cases b <;> simp <;> omega
    | succ j =>
      have hdiv : ((if b then 1 else 0) + 2 * lebs2ip t) / 2 = lebs2ip t := by
        cases b <;> simp <;> omega
      simp only [lebs2ip, Nat.testBit_succ, hdiv, ih, List.getD_cons_succ]

/-- The piece decomposition of an `A`-row word, from `AbcdVar::pieces`:
sub-ranges `[0,14) [14,28) [28,31) [31,34) [34,36) [36,39) [39,53) [53,64)`
of the 64 little-endian bits (pieces `a_lo a_hi b_lo b_hi c_lo c_hi d_lo d_hi`). -/
def AbcdVar.pieces (x : Nat) : List (List Bool) :=
  [sliceBits (i2lebsp 64 x) 0 14, sliceBits (i2lebsp 64 x) 14 28,
   sliceBits (i2lebsp 64 x) 28 31, sliceBits (i2lebsp 64 x) 31 34,
   sliceBits (i2lebsp 64 x) 34 36, sliceBits (i2lebsp 64 x) 36 39,
   sliceBits (i2lebsp 64 x) 39 53, sliceBits (i2lebsp 64 x) 53 64]

/-- The piece decomposition of an `E`-row word, from `EfghVar::pieces`:
sub-ranges `[0,14) [14,16) [16,18) [18,31) [31,41) [41,54) [54,64)`
of the 64 little-endian bits (pieces `a b_lo b_hi c_lo c_hi d_lo d_hi`). -/
def EfghVar.pieces (x : Nat) : List (List Bool) :=
  [sliceBits (i2lebsp 64 x) 0 14, sliceBits (i2lebsp 64 x) 14 16,
   sliceBits (i2lebsp 64 x) 16 18, sliceBits (i2lebsp 64 x) 18 31,
   sliceBits (i2lebsp 64 x) 31 41, sliceBits (i2lebsp 64 x) 41 54,
   sliceBits (i2lebsp 64 x) 54 64]

theorem spreadBits_take (l : List Bool) (n : Nat) :
    spreadBits (l.take n) = (spreadBits l).take (2 * n) := by
  induction n generalizing l with
  | zero => simp [spreadBits]
  | succ k ih =>
    cases l with
    | nil => simp [spreadBits]
    | cons b t =>
      rw [show 2 * (k + 1) = 2 * k + 1 + 1 by ring]
      simp [spreadBits, List.take_succ_cons, ih]

theorem spreadBits_drop (l : List Bool) (n : Nat) :
    spreadBits (l.drop n) = (spreadBits l).drop (2 * n) := by
  induction n generalizing l with
  | zero => simp
  | succ k ih =>
    cases l with
    | nil => simp [spreadBits]
    | cons b t =>
      rw [show 2 * (k + 1) = 2 * k + 1 + 1 by ring]
      simp [spreadBits, List.drop_succ_cons, ih]

theorem lebs2ip_sliceBits (l : List Bool) (a b : Nat) :
    lebs2ip (sliceBits l a b) = lebs2ip l / 2 ^ a % 2 ^ (b - a) := by
  rw [sliceBits, lebs2ip_take, lebs2ip_drop]

theorem lebs2ip_spreadBits_sliceBits (l : List Bool) (a b : Nat) :
    lebs2ip (spreadBits (sliceBits l a b)) =
      lebs2ip (spreadBits l) / 2 ^ (2 * a) % 2 ^ (2 * (b - a)) := by
  rw [sliceBits, spreadBits_take, spreadBits_drop, lebs2ip_take, lebs2ip_drop]

/-- Recombination of dense piece values with weight `2^offset`, the weighted
little-endian recombination of the specification's decomposition invariant. -/
def denseRecombine (pieces : List (List Bool)) (offsets : List Nat) : Nat :=
  (List.zip pieces offsets).foldr (fun pw acc => lebs2ip pw.1 * 2 ^ pw.2 + acc) 0

/-- Recombination of spread piece values with weight `4^offset`. -/
def spreadRecombine (pieces : List (List Bool)) (offsets : List Nat) : Nat :=
  (List.zip pieces offsets).foldr (fun pw acc => lebs2ip (spreadBits pw.1) * 4 ^ pw.2 + acc) 0

/-- C2: for every 64-bit word, recombining the `AbcdVar` pieces (offsets
0,14,28,31,34,36,39,53; widths 14,14,3,3,2,3,14,11) or the `EfghVar` pieces
(offsets 0,14,16,18,31,41,54; widths 14,2,2,13,10,13,10) with weight
`2^offset` reproduces the word, and recombining the spread forms with weight
`4^offset` reproduces the word's spread form. -/
theorem decompose_roundtrip (x : Nat) (hx : x < 2 ^ 64) :
    denseRecombine (AbcdVar.pieces x) [0, 14, 28, 31, 34, 36, 39, 53] = x
    ∧ spreadRecombine (AbcdVar.pieces x) [0, 14, 28, 31, 34, 36, 39, 53] = spread x
    ∧ denseRecombine (EfghVar.pieces x) [0, 14, 16, 18, 31, 41, 54] = x
    ∧ spreadRecombine (EfghVar.pieces x) [0, 14, 16, 18, 31, 41, 54] = spread x := by
  have hval : lebs2ip (i2lebsp 64 x) = x := lebs2ip_i2lebsp 64 x hx
  have hs : spread x < 2 ^ 128 := by
    have h1 := lebs2ip_lt (spreadBits (i2lebsp 64 x))
    rw [length_spreadBits, length_i2lebsp] at h1
    simpa [spread] using h1
  refine ⟨?_, ?_, ?_, ?_⟩
  · simp only [denseRecombine, AbcdVar.pieces, List.zip, List.zipWith, List.foldr,
      lebs2ip_sliceBits, hval]
    norm_num
    omega
  · simp only [spreadRecombine, AbcdVar.pieces, List.zip, List.zipWith, List.foldr,
      lebs2ip_spreadBits_sliceBits]
    rw [show lebs2ip (spreadBits (i2lebsp 64 x)) = spread x from rfl]
    norm_num
    omega
  · simp only [denseRecombine, EfghVar.pieces, List.zip, List.zipWith, List.foldr,
      lebs2ip_sliceBits, hval]
    norm_num
    omega
  · simp only [spreadRecombine, EfghVar.pieces, List.zip, List.zipWith, List.foldr,
      lebs2ip_spreadBits_sliceBits]
    rw [show lebs2ip (spreadBits (i2lebsp 64 x)) = spread x from rfl]
    norm_num
    omega

/-- Witness for `decompose_roundtrip` at a concrete input. -/
theorem decompose_roundtrip_witness :
    denseRecombine (AbcdVar.pieces 81985529216486895) [0, 14, 28, 31, 34, 36, 39, 53] =
      81985529216486895 :=
  (decompose_roundtrip 81985529216486895 (by norm_num)).1

/-- The value formed by the bits at even positions of the low `2k` bits of
`u`, repacked contiguously (the despread of the even half). -/
def evensVal : Nat → Nat → Nat
  | 0, _ => 0
  | k + 1, u => u % 2 + 2 * evensVal k (u / 4)

/-- The even (low) bit of every base-4 digit of `u`, kept in spread position:
the "even half" of the even/odd split of a spread-sum witness. -/
def evenHalf : Nat → Nat → Nat
  | 0, _ => 0
  | k + 1, u => u % 2 + 4 * evenHalf k (u / 4)

/-- The odd (high/carry) bit of every base-4 digit of `u`, kept in spread
position: the "odd half" of the even/odd split of a spread-sum witness. -/
def oddHalf : Nat → Nat → Nat
  | 0, _ => 0
  | k + 1, u => u / 2 % 2 + 4 * oddHalf k (u / 4)

theorem lebs2ip_spreadBits_cons (a : Bool) (t : List Bool) :
    lebs2ip (spreadBits (a :: t)) =
      (if a then 1 else 0) + 4 * lebs2ip (spreadBits t) := by
  simp [spreadBits, lebs2ip]
  ring

theorem evensVal_digit (s T k : Nat) (hs : s < 4) :
    evensVal (k + 1) (s + 4 * T) = s % 2 + 2 * evensVal k T := by
  rw [evensVal]
  have h1 : (s + 4 * T) % 2 = s % 2 := by omega
  have h2 : (s + 4 * T) / 4 = T := by omega
  rw [h1, h2]

theorem evenHalf_digit (s T k : Nat) (hs : s < 4) :
    evenHalf (k + 1) (s + 4 * T) = s % 2 + 4 * evenHalf k T := by
  rw [evenHalf]
  have h1 : (s + 4 * T) % 2 = s % 2 := by omega
  have h2 : (s + 4 * T) / 4 = T := by omega
  rw [h1, h2]

theorem oddHalf_digit (s T k : Nat) (hs : s < 4) :
    oddHalf (k + 1) (s + 4 * T) = s / 2 + 4 * oddHalf k T := by
  rw [oddHalf]
  have h1 : (s + 4 * T) / 2 % 2 = s / 2 := by omega
  have h2 : (s + 4 * T) / 4 = T := by omega
  rw [h1, h2]

theorem lebs2ip_evens_i2lebsp (n : Nat) : ∀ s : Nat,
    lebs2ip (evens (i2lebsp (2 * n) s)) = evensVal n s := by
  induction n with
  | zero => intro s; simp [i2lebsp, evens, lebs2ip, evensVal]
  | succ k ih =>
    intro s
    rw [show 2 * (k + 1) = 2 * k + 1 + 1 by ring]
    simp only [i2lebsp, evens, lebs2ip]
    rw [show s / 2 / 2 = s / 4 by omega, ih (s / 4), evensVal]
    rcases Nat.mod_two_eq_zero_or_one s with h | h <;> simp [h]

theorem getD_zipWith_bool (f : Bool → Bool → Bool) (hf : f false false = false)
    (p : List Bool) : ∀ (q : List Bool), p.length = q.length → ∀ n : Nat,
    (List.zipWith f p q).getD n false = f (p.getD n false) (q.getD n false) := by
  induction p with
  | nil =>
    intro q hq n
    cases q with
    | nil => simp [hf]
    | cons b t => simp at hq
  | cons a p' ih =>
    intro q hq n
    cases q with
    | nil => simp at hq
    | cons b q' =>
      cases n with
      | zero => simp
      | succ m =>
        simp only [List.zipWith_cons_cons, List.getD_cons_succ]
        exact ih q' (by simpa using hq) m

theorem lebs2ip_zipWith_xor (p q : List Bool) (h : p.length = q.length) :
    lebs2ip (List.zipWith Bool.xor p q) = lebs2ip p ^^^ lebs2ip q := by
  apply Nat.eq_of_testBit_eq
  intro i
  rw [testBit_lebs2ip, Nat.testBit_xor, testBit_lebs2ip, testBit_lebs2ip,
    getD_zipWith_bool Bool.xor rfl p q h i]

theorem lebs2ip_zipWith_and (p q : List Bool) (h : p.length = q.length) :
    lebs2ip (List.zipWith Bool.and p q) = lebs2ip p &&& lebs2ip q := by
  apply Nat.eq_of_testBit_eq
  intro i
  rw [testBit_lebs2ip, Nat.testBit_and, testBit_lebs2ip, testBit_lebs2ip,
    getD_zipWith_bool Bool.and rfl p q h i]

theorem evensVal_three_spread (n : Nat) : ∀ (p q r : List Bool),
    p.length = n → q.length = n → r.length = n →
    evensVal n (lebs2ip (spreadBits p) + lebs2ip (spreadBits q) + lebs2ip (spreadBits r)) =
      lebs2ip (List.zipWith Bool.xor (List.zipWith Bool.xor p q) r) := by
  induction n with
  | zero =>
    intro p q r hp hq hr
    simp [List.length_eq_zero.mp hp, List.length_eq_zero.mp hq, List.length_eq_zero.mp hr,
      evensVal, lebs2ip]
  | succ k ih =>
    intro p q r hp hq hr
    cases p with
    | nil => simp at hp
    | cons a p' =>
    cases q with
    | nil => simp at hq
    | cons b q' =>
    cases r with
    | nil => simp at hr
    | cons c r' =>
    rw [lebs2ip_spreadBits_cons a p', lebs2ip_spreadBits_cons b q', lebs2ip_spreadBits_cons c r']
    simp only [List.zipWith_cons_cons, lebs2ip]
    rw [← ih p' q' r' (by simpa using hp) (by simpa using hq) (by simpa using hr)]
    rw [show (if a then 1 else 0) + 4 * lebs2ip (spreadBits p')
        + ((if b then 1 else 0) + 4 * lebs2ip (spreadBits q'))
        + ((if c then 1 else 0) + 4 * lebs2ip (spreadBits r'))
        = ((if a then 1 else 0) + (if b then 1 else 0) + (if c then 1 else 0))
          + 4 * (lebs2ip (spreadBits p') + lebs2ip (spreadBits q') + lebs2ip (spreadBits r'))
        by ring]
    rw [evensVal_digit _ _ _ (by cases a <;> cases b <;> cases c <;> simp)]
    congr 1
    cases a <;> cases b <;> cases c <;> simp [Bool.xor]

theorem three_mul_lebs2ip_spreadBits (l : List Bool) :
    3 * lebs2ip (spreadBits l) + 1 ≤ 4 ^ l.length := by
  induction l with
  | nil => simp [spreadBits, lebs2ip]
  | cons a t ih =>
    rw [lebs2ip_spreadBits_cons, List.length_cons, pow_succ]
    have ha : (if a then 1 else 0) ≤ 1 := by cases a <;> simp
    omega

theorem length_sliceBits_i2lebsp (x a b : Nat) (hb : b ≤ 64) (hab : a ≤ b) :
    (sliceBits (i2lebsp 64 x) a b).length = b - a :=
  length_sliceBits _ a b (by rw [length_i2lebsp]; omega) hab

theorem length_sliceBits64 (x a b : Nat) :
    (sliceBits (i2lebsp 64 x) a b).length = min (b - a) (64 - a) := by
  simp [sliceBits, List.length_take, List.length_drop, length_i2lebsp]

/-- The 64 bits of a word rotated right by `n`: bits `[n,64)` followed by
bits `[0,n)`, the piece order used by the three `xor_i` chains. -/
def rotList (v : List Bool) (n : Nat) : List Bool := sliceBits v n 64 ++ sliceBits v 0 n

theorem length_rotList (v : List Bool) (n : Nat) (hv : v.length = 64) (hn : n ≤ 64) :
    (rotList v n).length = 64 := by
  rw [rotList, List.length_append, length_sliceBits v n 64 (by omega) hn,
    length_sliceBits v 0 n (by omega) (by omega)]
  omega

/-- Modelled from the spec: right-rotation of a 64-bit word by `n` places. -/
def rotr64 (n x : Nat) : Nat := x / 2 ^ n + x % 2 ^ n * 2 ^ (64 - n)

/-- Modelled from the spec: the reference `Σ0(x) = rotr28 x ⊕ rotr34 x ⊕ rotr39 x`. -/
def upperSigma0 (x : Nat) : Nat := rotr64 28 x ^^^ rotr64 34 x ^^^ rotr64 39 x

/-- Modelled from the spec: the reference `Σ1(x) = rotr14 x ⊕ rotr18 x ⊕ rotr41 x`. -/
def upperSigma1 (x : Nat) : Nat := rotr64 14 x ^^^ rotr64 18 x ^^^ rotr64 41 x

theorem lebs2ip_rotList (x n : Nat) (hx : x < 2 ^ 64) (hn : n ≤ 64) :
    lebs2ip (rotList (i2lebsp 64 x) n) = rotr64 n x := by
  have hval : lebs2ip (i2lebsp 64 x) = x := lebs2ip_i2lebsp 64 x hx
  have hlen : (i2lebsp 64 x).length = 64 := length_i2lebsp 64 x
  have hpow : (2:Nat) ^ (64 - n) * 2 ^ n = 2 ^ 64 := by
    rw [← pow_add, Nat.sub_add_cancel hn]
  have hdlt : x / 2 ^ n < 2 ^ (64 - n) := by
    rw [Nat.div_lt_iff_lt_mul (pow_pos (by omega : (0:Nat) < 2) n), hpow]
    exact hx
  rw [rotList, lebs2ip_append, lebs2ip_sliceBits, lebs2ip_sliceBits, hval,
    length_sliceBits _ _ _ (by omega) hn, Nat.mod_eq_of_lt hdlt, rotr64]
  have h0 : x / 2 ^ 0 % 2 ^ (n - 0) = x % 2 ^ n := by
    rw [pow_zero, Nat.div_one, Nat.sub_zero]
  rw [h0]
  ring

/-- `AbcdVar`'s `spread_a`: the spread bits of piece `a`, chained from the
`a_lo` and `a_hi` rows (source lines 143-156). -/
def AbcdVar.spread_a (x : Nat) : List Bool :=
  spreadBits (sliceBits (i2lebsp 64 x) 0 14) ++ spreadBits (sliceBits (i2lebsp 64 x) 14 28)

/-- `AbcdVar`'s `spread_b`: spread bits of piece `b` from `b_lo`, `b_hi`. -/
def AbcdVar.spread_b (x : Nat) : List Bool :=
  spreadBits (sliceBits (i2lebsp 64 x) 28 31) ++ spreadBits (sliceBits (i2lebsp 64 x) 31 34)

/-- `AbcdVar`'s `spread_c`: spread bits of piece `c` from `c_lo`, `c_hi`. -/
def AbcdVar.spread_c (x : Nat) : List Bool :=
  spreadBits (sliceBits (i2lebsp 64 x) 34 36) ++ spreadBits (sliceBits (i2lebsp 64 x) 36 39)

/-- `AbcdVar`'s `spread_d`: spread bits of piece `d` from `d_lo`, `d_hi`. -/
def AbcdVar.spread_d (x : Nat) : List Bool :=
  spreadBits (sliceBits (i2lebsp 64 x) 39 53) ++ spreadBits (sliceBits (i2lebsp 64 x) 53 64)

/-- `EfghVar`'s `spread_a`: spread bits of the single 14-bit piece `a`. -/
def EfghVar.spread_a (x : Nat) : List Bool := spreadBits (sliceBits (i2lebsp 64 x) 0 14)

/-- `EfghVar`'s `spread_b`: spread bits of piece `b` from `b_lo`, `b_hi`. -/
def EfghVar.spread_b (x : Nat) : List Bool :=
  spreadBits (sliceBits (i2lebsp 64 x) 14 16) ++ spreadBits (sliceBits (i2lebsp 64 x) 16 18)

/-- `EfghVar`'s `spread_c`: spread bits of piece `c` from `c_lo`, `c_hi`. -/
def EfghVar.spread_c (x : Nat) : List Bool :=
  spreadBits (sliceBits (i2lebsp 64 x) 18 31) ++ spreadBits (sliceBits (i2lebsp 64 x) 31 41)

/-- `EfghVar`'s `spread_d`: spread bits of piece `d` from `d_lo`, `d_hi`. -/
def EfghVar.spread_d (x : Nat) : List Bool :=
  spreadBits (sliceBits (i2lebsp 64 x) 41 54) ++ spreadBits (sliceBits (i2lebsp 64 x) 54 64)

/-- The body of `UpperSigmaVar::xor_upper_sigma`: chain the spread pieces in
the three rotation orders, interpret each 128-bit little-endian array as an
integer, add them in `u128` arithmetic, and re-encode the sum as 128 bits. -/
def xorUpperSigma (a b c d : List Bool) : List Bool :=
  i2lebsp 128
    ((lebs2ip (b ++ c ++ d ++ a) + lebs2ip (c ++ d ++ a ++ b) + lebs2ip (d ++ a ++ b ++ c))
      % 2 ^ 128)

theorem abcd_concat_0 (x : Nat) :
    lebs2ip (AbcdVar.spread_b x ++ AbcdVar.spread_c x ++ AbcdVar.spread_d x ++ AbcdVar.spread_a x)
      = lebs2ip (spreadBits (rotList (i2lebsp 64 x) 28)) := by
  simp only [AbcdVar.spread_a, AbcdVar.spread_b, AbcdVar.spread_c, AbcdVar.spread_d, rotList,
    spreadBits_append, lebs2ip_append, List.length_append, length_spreadBits,
    lebs2ip_spreadBits_sliceBits, length_sliceBits64]
  norm_num
  omega

theorem abcd_concat_1 (x : Nat) :
    lebs2ip (AbcdVar.spread_c x ++ AbcdVar.spread_d x ++ AbcdVar.spread_a x ++ AbcdVar.spread_b x)
      = lebs2ip (spreadBits (rotList (i2lebsp 64 x) 34)) := by
  simp only [AbcdVar.spread_a, AbcdVar.spread_b, AbcdVar.spread_c, AbcdVar.spread_d, rotList,
    spreadBits_append, lebs2ip_append, List.length_append, length_spreadBits,
    lebs2ip_spreadBits_sliceBits, length_sliceBits64]
  norm_num
  omega

theorem abcd_concat_2 (x : Nat) :
    lebs2ip (AbcdVar.spread_d x ++ AbcdVar.spread_a x ++ AbcdVar.spread_b x ++ AbcdVar.spread_c x)
      = lebs2ip (spreadBits (rotList (i2lebsp 64 x) 39)) := by
  simp only [AbcdVar.spread_a, AbcdVar.spread_b, AbcdVar.spread_c, AbcdVar.spread_d, rotList,
    spreadBits_append, lebs2ip_append, List.length_append, length_spreadBits,
    lebs2ip_spreadBits_sliceBits, length_sliceBits64]
  norm_num
  omega

theorem efgh_concat_0 (x : Nat) :
    lebs2ip (EfghVar.spread_b x ++ EfghVar.spread_c x ++ EfghVar.spread_d x ++ EfghVar.spread_a x)
      = lebs2ip (spreadBits (rotList (i2lebsp 64 x) 14)) := by
  simp only [EfghVar.spread_a, EfghVar.spread_b, EfghVar.spread_c, EfghVar.spread_d, rotList,
    spreadBits_append, lebs2ip_append, List.length_append, length_spreadBits,
    lebs2ip_spreadBits_sliceBits, length_sliceBits64]
  norm_num
  omega

theorem efgh_concat_1 (x : Nat) :
    lebs2ip (EfghVar.spread_c x ++ EfghVar.spread_d x ++ EfghVar.spread_a x ++ EfghVar.spread_b x)
      = lebs2ip (spreadBits (rotList (i2lebsp 64 x) 18)) := by
  simp only [EfghVar.spread_a, EfghVar.spread_b, EfghVar.spread_c, EfghVar.spread_d, rotList,
    spreadBits_append, lebs2ip_append, List.length_append, length_spreadBits,
    lebs2ip_spreadBits_sliceBits, length_sliceBits64]
  norm_num
  omega

theorem efgh_concat_2 (x : Nat) :
    lebs2ip (EfghVar.spread_d x ++ EfghVar.spread_a x ++ EfghVar.spread_b x ++ EfghVar.spread_c x)
      = lebs2ip (spreadBits (rotList (i2lebsp 64 x) 41)) := by
  simp only [EfghVar.spread_a, EfghVar.spread_b, EfghVar.spread_c, EfghVar.spread_d, rotList,
    spreadBits_append, lebs2ip_append, List.length_append, length_spreadBits,
    lebs2ip_spreadBits_sliceBits, length_sliceBits64]
  norm_num
  omega

/-- C3: for every 64-bit `x`, the even-position bits of the 128-bit sum
computed by `xor_upper_sigma` on the spread pieces of `x` despread exactly to
the reference `Σ0(x) = rotr28 ⊕ rotr34 ⊕ rotr39` for the `AbcdVar` pieces
(28,6,5,25 bits) and to `Σ1(x) = rotr14 ⊕ rotr18 ⊕ rotr41` for the `EfghVar`
pieces (14,4,23,23 bits). -/
theorem xor_upper_sigma_spec (x : Nat) (hx : x < 2 ^ 64) :
    lebs2ip (evens (xorUpperSigma (AbcdVar.spread_a x) (AbcdVar.spread_b x)
        (AbcdVar.spread_c x) (AbcdVar.spread_d x))) = upperSigma0 x
    ∧ lebs2ip (evens (xorUpperSigma (EfghVar.spread_a x) (EfghVar.spread_b x)
        (EfghVar.spread_c x) (EfghVar.spread_d x))) = upperSigma1 x := by
  have hlen : (i2lebsp 64 x).length = 64 := length_i2lebsp 64 x
  have h4 : (4:Nat) ^ 64 = 2 ^ 128 := by norm_num
  constructor
  · rw [xorUpperSigma, abcd_concat_0 x, abcd_concat_1 x, abcd_concat_2 x]
    have hl1 : (rotList (i2lebsp 64 x) 28).length = 64 := length_rotList _ _ hlen (by omega)
    have hl2 : (rotList (i2lebsp 64 x) 34).length = 64 := length_rotList _ _ hlen (by omega)
    have hl3 : (rotList (i2lebsp 64 x) 39).length = 64 := length_rotList _ _ hlen (by omega)
    have hb1 := three_mul_lebs2ip_spreadBits (rotList (i2lebsp 64 x) 28)
    have hb2 := three_mul_lebs2ip_spreadBits (rotList (i2lebsp 64 x) 34)
    have hb3 := three_mul_lebs2ip_spreadBits (rotList (i2lebsp 64 x) 39)
    rw [hl1, h4] at hb1
    rw [hl2, h4] at hb2
    rw [hl3, h4] at hb3
    rw [Nat.mod_eq_of_lt (by omega)]
    rw [show (128:Nat) = 2 * 64 by norm_num, lebs2ip_evens_i2lebsp 64]
    rw [evensVal_three_spread 64 _ _ _ hl1 hl2 hl3]
    rw [lebs2ip_zipWith_xor _ _ (by rw [List.length_zipWith, hl1, hl2, hl3]; omega)]
    rw [lebs2ip_zipWith_xor _ _ (hl1.trans hl2.symm)]
    rw [lebs2ip_rotList x 28 hx (by omega), lebs2ip_rotList x 34 hx (by omega),
      lebs2ip_rotList x 39 hx (by omega)]
    rfl
  · rw [xorUpperSigma, efgh_concat_0 x, efgh_concat_1 x, efgh_concat_2 x]
    have hl1 : (rotList (i2lebsp 64 x) 14).length = 64 := length_rotList _ _ hlen (by omega)
    have hl2 : (rotList (i2lebsp 64 x) 18).length = 64 := length_rotList _ _ hlen (by omega)
    have hl3 : (rotList (i2lebsp 64 x) 41).length = 64 := length_rotList _ _ hlen (by omega)
    have hb1 := three_mul_lebs2ip_spreadBits (rotList (i2lebsp 64 x) 14)
    have hb2 := three_mul_lebs2ip_spreadBits (rotList (i2lebsp 64 x) 18)
    have hb3 := three_mul_lebs2ip_spreadBits (rotList (i2lebsp 64 x) 41)
    rw [hl1, h4] at hb1
    rw [hl2, h4] at hb2
    rw [hl3, h4] at hb3
    rw [Nat.mod_eq_of_lt (by omega)]
    rw [show (128:Nat) = 2 * 64 by norm_num, lebs2ip_evens_i2lebsp 64]
    rw [evensVal_three_spread 64 _ _ _ hl1 hl2 hl3]
    rw [lebs2ip_zipWith_xor _ _ (by rw [List.length_zipWith, hl1, hl2, hl3]; omega)]
    rw [lebs2ip_zipWith_xor _ _ (hl1.trans hl2.symm)]
    rw [lebs2ip_rotList x 14 hx (by omega), lebs2ip_rotList x 18 hx (by omega),
      lebs2ip_rotList x 41 hx (by omega)]
    rfl

/-- Witness for `xor_upper_sigma_spec` at a concrete input. -/
theorem xor_upper_sigma_spec_witness :
    lebs2ip (evens (xorUpperSigma (AbcdVar.spread_a 12345678901234567) (AbcdVar.spread_b 12345678901234567)
        (AbcdVar.spread_c 12345678901234567) (AbcdVar.spread_d 12345678901234567)))
      = upperSigma0 12345678901234567 :=
  (xor_upper_sigma_spec 12345678901234567 (by norm_num)).1

/-- Well-formedness of a spread bit array: every odd position holds `false`
(and the length is even). -/
def sparseB : List Bool → Bool
  | [] => true
  | [_] => false
  | _ :: b :: t => !b && sparseB t

theorem sparseB_append (l2 : List Bool) (h2 : sparseB l2 = true) :
    ∀ l1, sparseB l1 = true → sparseB (l1 ++ l2) = true
  | [], _ => by simpa using h2
  | [a], h1 => by simp [sparseB] at h1
  | a :: b :: t, h1 => by
    simp only [sparseB, Bool.and_eq_true] at h1
    simp only [List.cons_append, sparseB, Bool.and_eq_true]
    exact ⟨h1.1, sparseB_append l2 h2 t h1.2⟩

theorem sparseB_bound : ∀ l, sparseB l = true → 3 * lebs2ip l + 1 ≤ 4 ^ (l.length / 2)
  | [], _ => by simp [lebs2ip]
  | [a], h => by simp [sparseB] at h
  | a :: b :: t, h => by
    simp only [sparseB, Bool.and_eq_true] at h
    have ih := sparseB_bound t h.2
    have hb : b = false := by simpa using h.1
    subst hb
    simp only [lebs2ip, List.length_cons]
    have hlen : (t.length + 1 + 1) / 2 = t.length / 2 + 1 := by omega
    rw [hlen, pow_succ]
    have ha : (if a then 1 else 0) ≤ 1 := by cases a <;> simp
    simp only [if_neg (by simp : ¬ (false = true))]
    omega

theorem sparseB_spreadBits (l : List Bool) : sparseB (spreadBits l) = true := by
  induction l with
  | nil => rfl
  | cons a t ih => simp [spreadBits, sparseB, ih]

/-- C10: for well-formed spread inputs of total length 128, each of the three
rotated recombinations inside `xor_upper_sigma` is at most `(4^64-1)/3`,
their sum stays below `2^128` (the `u128` addition cannot wrap), and the
128-bit re-encoding of the sum is exact. -/
theorem xor_upper_sigma_no_overflow (a b c d : List Bool)
    (ha : sparseB a = true) (hb : sparseB b = true)
    (hc : sparseB c = true) (hd : sparseB d = true)
    (hlen : a.length + b.length + c.length + d.length = 128) :
    lebs2ip (b ++ c ++ d ++ a) ≤ (4 ^ 64 - 1) / 3
    ∧ lebs2ip (c ++ d ++ a ++ b) ≤ (4 ^ 64 - 1) / 3
    ∧ lebs2ip (d ++ a ++ b ++ c) ≤ (4 ^ 64 - 1) / 3
    ∧ lebs2ip (b ++ c ++ d ++ a) + lebs2ip (c ++ d ++ a ++ b) + lebs2ip (d ++ a ++ b ++ c)
        ≤ 4 ^ 64 - 1
    ∧ lebs2ip (xorUpperSigma a b c d)
        = lebs2ip (b ++ c ++ d ++ a) + lebs2ip (c ++ d ++ a ++ b) + lebs2ip (d ++ a ++ b ++ c) := by
  have h0 := sparseB_bound _ (sparseB_append a ha _
    (sparseB_append d hd _ (sparseB_append c hc b hb)))
  have h1 := sparseB_bound _ (sparseB_append b hb _
    (sparseB_append a ha _ (sparseB_append d hd c hc)))
  have h2 := sparseB_bound _ (sparseB_append c hc _
    (sparseB_append b hb _ (sparseB_append a ha d hd)))
  rw [List.length_append, List.length_append, List.length_append] at h0 h1 h2
  rw [show (b.length + c.length + d.length + a.length) / 2 = 64 by omega] at h0
  rw [show (c.length + d.length + a.length + b.length) / 2 = 64 by omega] at h1
  rw [show (d.length + a.length + b.length + c.length) / 2 = 64 by omega] at h2
  have h4 : (4:Nat) ^ 64 = 2 ^ 128 := by norm_num
  have hq : ((4:Nat) ^ 64 - 1) / 3 = 113427455640312821154458202477256070485 := by norm_num
  rw [h4] at h0 h1 h2
  refine ⟨by omega, by omega, by omega, by rw [h4]; omega, ?_⟩
  rw [xorUpperSigma, Nat.mod_eq_of_lt (by omega), lebs2ip_i2lebsp 128 _ (by omega)]

/-- Witness for `xor_upper_sigma_no_overflow` at concrete sparse inputs. -/
theorem xor_upper_sigma_no_overflow_witness :
    lebs2ip (List.replicate 12 false ++ List.replicate 10 false ++ List.replicate 50 false
      ++ List.replicate 56 false) ≤ (4 ^ 64 - 1) / 3 :=
  (xor_upper_sigma_no_overflow (List.replicate 56 false) (List.replicate 12 false)
    (List.replicate 10 false) (List.replicate 50 false)
    (by decide) (by decide) (by decide) (by decide) (by decide)).1

theorem digit_two_spread (p : List Bool) : ∀ (q : List Bool), p.length = q.length →
    ∀ i, (lebs2ip (spreadBits p) + lebs2ip (spreadBits q)) / 4 ^ i % 4 ≤ 2 := by
  induction p with
  | nil =>
    intro q hq i
    rw [List.length_eq_zero.mp hq.symm]
    simp [spreadBits, lebs2ip]
  | cons a p' ih =>
    intro q hq i
    cases q with
    | nil => simp at hq
    | cons b q' =>
      rw [lebs2ip_spreadBits_cons, lebs2ip_spreadBits_cons]
      have ha : (if a then 1 else 0) ≤ 1 := by cases a <;> simp
      have hb : (if b then 1 else 0) ≤ 1 := by cases b <;> simp
      cases i with
      | zero => simp only [pow_zero, Nat.div_one]; omega
      | succ j =>
        have hde : ((if a then 1 else 0) + 4 * lebs2ip (spreadBits p')
            + ((if b then 1 else 0) + 4 * lebs2ip (spreadBits q'))) / 4
            = lebs2ip (spreadBits p') + lebs2ip (spreadBits q') := by omega
        rw [pow_succ, Nat.mul_comm (4 ^ j) 4, ← Nat.div_div_eq_div_mul, hde]
        exact ih q' (by simpa using hq) j

theorem digit_three_spread (p : List Bool) : ∀ (q r : List Bool),
    p.length = q.length → p.length = r.length →
    ∀ i, (lebs2ip (spreadBits p) + lebs2ip (spreadBits q) + lebs2ip (spreadBits r))
      / 4 ^ i % 4 ≤ 3 := by
  induction p with
  | nil =>
    intro q r hq hr i
    rw [List.length_eq_zero.mp hq.symm, List.length_eq_zero.mp hr.symm]
    simp [spreadBits, lebs2ip]
  | cons a p' ih =>
    intro q r hq hr i
    cases q with
    | nil => simp at hq
    | cons b q' =>
    cases r with
    | nil => simp at hr
    | cons c r' =>
      rw [lebs2ip_spreadBits_cons, lebs2ip_spreadBits_cons, lebs2ip_spreadBits_cons]
      have ha : (if a then 1 else 0) ≤ 1 := by cases a <;> simp
      have hb : (if b then 1 else 0) ≤ 1 := by cases b <;> simp
      have hc : (if c then 1 else 0) ≤ 1 := by cases c <;> simp
      cases i with
      | zero => simp only [pow_zero, Nat.div_one]; omega
      | succ j =>
        have hde : ((if a then 1 else 0) + 4 * lebs2ip (spreadBits p')
            + ((if b then 1 else 0) + 4 * lebs2ip (spreadBits q'))
            + ((if c then 1 else 0) + 4 * lebs2ip (spreadBits r'))) / 4
            = lebs2ip (spreadBits p') + lebs2ip (spreadBits q') + lebs2ip (spreadBits r') := by
          omega
        rw [pow_succ, Nat.mul_comm (4 ^ j) 4, ← Nat.div_div_eq_div_mul, hde]
        exact ih q' r' (by simpa using hq) (by simpa using hr) j

theorem evenHalf_add_two_mul_oddHalf (n : Nat) : ∀ u, u < 4 ^ n →
    evenHalf n u + 2 * oddHalf n u = u := by
  induction n with
  | zero => intro u hu; interval_cases u; simp [evenHalf, oddHalf]
  | succ k ih =>
    intro u hu
    have hu4 : u / 4 < 4 ^ k := by rw [pow_succ] at hu; omega
    rw [evenHalf, oddHalf]
    have := ih (u / 4) hu4
    omega

theorem oddHalf_two_spread (p : List Bool) : ∀ (q : List Bool), p.length = q.length →
    oddHalf p.length (lebs2ip (spreadBits p) + lebs2ip (spreadBits q))
      = lebs2ip (spreadBits (List.zipWith Bool.and p q)) := by
  induction p with
  | nil =>
    intro q hq
    simp [spreadBits, lebs2ip, oddHalf]
  | cons a p' ih =>
    intro q hq
    cases q with
    | nil => simp at hq
    | cons b q' =>
      rw [lebs2ip_spreadBits_cons, lebs2ip_spreadBits_cons, List.zipWith_cons_cons,
        lebs2ip_spreadBits_cons, List.length_cons]
      rw [show (if a then 1 else 0) + 4 * lebs2ip (spreadBits p')
          + ((if b then 1 else 0) + 4 * lebs2ip (spreadBits q'))
          = ((if a then 1 else 0) + (if b then 1 else 0))
            + 4 * (lebs2ip (spreadBits p') + lebs2ip (spreadBits q')) by ring]
      rw [oddHalf_digit _ _ _ (by cases a <;> cases b <;> simp)]
      rw [← ih q' (by simpa using hq)]
      congr 1
      cases a <;> cases b <;> simp

theorem evenHalf_two_spread (p : List Bool) : ∀ (q : List Bool), p.length = q.length →
    evenHalf p.length (lebs2ip (spreadBits p) + lebs2ip (spreadBits q))
      = lebs2ip (spreadBits (List.zipWith Bool.xor p q)) := by
  induction p with
  | nil =>
    intro q hq
    simp [spreadBits, lebs2ip, evenHalf]
  | cons a p' ih =>
    intro q hq
    cases q with
    | nil => simp at hq
    | cons b q' =>
      rw [lebs2ip_spreadBits_cons, lebs2ip_spreadBits_cons, List.zipWith_cons_cons,
        lebs2ip_spreadBits_cons, List.length_cons]
      rw [show (if a then 1 else 0) + 4 * lebs2ip (spreadBits p')
          + ((if b then 1 else 0) + 4 * lebs2ip (spreadBits q'))
          = ((if a then 1 else 0) + (if b then 1 else 0))
            + 4 * (lebs2ip (spreadBits p') + lebs2ip (spreadBits q')) by ring]
      rw [evenHalf_digit _ _ _ (by cases a <;> cases b <;> simp)]
      rw [← ih q' (by simpa using hq)]
      congr 1
      cases a <;> cases b <;> simp

/-- `CompressionGate::s_upper_sigma_0` (table64): the selector times
`spread_witness - (xor_0 + xor_1 + xor_2)`, with the source's coefficients. -/
def CompressionGate.s_upper_sigma_0 (F : Type) [Field F]
    (s r0_even r0_odd r1_even r1_odd sa sb_lo sb_hi sc_lo sc_hi sd : F) : F :=
  s * ((r0_even + r0_odd * 2 + (r1_even + r1_odd * 2) * 2 ^ 64)
    - ((sb_lo + sb_hi * 2 ^ 6 + sc_lo * 2 ^ 12 + sc_hi * 2 ^ 18 + sd * 2 ^ 22 + sa * 2 ^ 72)
      + (sc_lo + sc_hi * 2 ^ 6 + sd * 2 ^ 10 + sa * 2 ^ 60 + sb_lo * 2 ^ 116 + sb_hi * 2 ^ 122)
      + (sd + sa * 2 ^ 50 + sb_lo * 2 ^ 106 + sb_hi * 2 ^ 112 + sc_lo * 2 ^ 118
        + sc_hi * 2 ^ 124)))

/-- `CompressionGate::s_upper_sigma_1` (table64): the selector times
`spread_witness - (xor_0 + xor_1 + xor_2)`, with the source's coefficients. -/
def CompressionGate.s_upper_sigma_1 (F : Type) [Field F]
    (s r0_even r0_odd r1_even r1_odd sa sb_lo sb_hi sc sd : F) : F :=
  s * ((r0_even + r0_odd * 2 + (r1_even + r1_odd * 2) * 2 ^ 64)
    - ((sb_lo + sb_hi * 2 ^ 4 + sc * 2 ^ 8 + sd * 2 ^ 54 + sa * 2 ^ 100)
      + (sc + sd * 2 ^ 46 + sa * 2 ^ 92 + sb_lo * 2 ^ 120 + sb_hi * 2 ^ 124)
      + (sd + sa * 2 ^ 46 + sb_lo * 2 ^ 74 + sb_hi * 2 ^ 78 + sc * 2 ^ 82)))

/-- C4: with the selector active, `s_upper_sigma_0` (resp. `s_upper_sigma_1`)
vanishes exactly when the declared even/odd witness recombination
`r0_even + 2 r0_odd + 2^64 (r1_even + 2 r1_odd)` equals the sum of the three
re-anchored rotated linear combinations with the claimed coefficients. -/
theorem upper_sigma_gate_vanishes (F : Type) [Field F]
    (s r0_even r0_odd r1_even r1_odd sa sb_lo sb_hi sc_lo sc_hi sd sc1 sd1 : F)
    (hs : s ≠ 0) :
    (CompressionGate.s_upper_sigma_0 F s r0_even r0_odd r1_even r1_odd
        sa sb_lo sb_hi sc_lo sc_hi sd = 0 ↔
      r0_even + 2 * r0_odd + 2 ^ 64 * (r1_even + 2 * r1_odd)
        = (sb_lo + sb_hi * 2 ^ 6 + sc_lo * 2 ^ 12 + sc_hi * 2 ^ 18 + sd * 2 ^ 22 + sa * 2 ^ 72)
          + (sc_lo + sc_hi * 2 ^ 6 + sd * 2 ^ 10 + sa * 2 ^ 60 + sb_lo * 2 ^ 116
            + sb_hi * 2 ^ 122)
          + (sd + sa * 2 ^ 50 + sb_lo * 2 ^ 106 + sb_hi * 2 ^ 112 + sc_lo * 2 ^ 118
            + sc_hi * 2 ^ 124))
    ∧ (CompressionGate.s_upper_sigma_1 F s r0_even r0_odd r1_even r1_odd
        sa sb_lo sb_hi sc1 sd1 = 0 ↔
      r0_even + 2 * r0_odd + 2 ^ 64 * (r1_even + 2 * r1_odd)
        = (sb_lo + sb_hi * 2 ^ 4 + sc1 * 2 ^ 8 + sd1 * 2 ^ 54 + sa * 2 ^ 100)
          + (sc1 + sd1 * 2 ^ 46 + sa * 2 ^ 92 + sb_lo * 2 ^ 120 + sb_hi * 2 ^ 124)
          + (sd1 + sa * 2 ^ 46 + sb_lo * 2 ^ 74 + sb_hi * 2 ^ 78 + sc1 * 2 ^ 82)) := by
  constructor
  · rw [CompressionGate.s_upper_sigma_0, mul_eq_zero, or_iff_right hs, sub_eq_zero]
    constructor <;> intro h <;> linear_combination h
  · rw [CompressionGate.s_upper_sigma_1, mul_eq_zero, or_iff_right hs, sub_eq_zero]
    constructor <;> intro h <;> linear_combination h

/-- Witness for `upper_sigma_gate_vanishes`: the active gate at an all-zero
assignment vanishes. -/
theorem upper_sigma_gate_vanishes_witness :
    CompressionGate.s_upper_sigma_0 ℚ 1 0 0 0 0 0 0 0 0 0 0 = 0 :=
  (upper_sigma_gate_vanishes ℚ 1 0 0 0 0 0 0 0 0 0 0 0 0 one_ne_zero).1.mpr (by ring)

/-- Per-position majority of three bit lists. -/
def majList (p q r : List Bool) : List Bool :=
  List.zipWith Bool.xor (List.zipWith Bool.and p q)
    (List.zipWith Bool.xor (List.zipWith Bool.and p r) (List.zipWith Bool.and q r))

/-- Modelled from the spec: the reference per-position majority
`Maj(A,B,C) = (A ∧ B) ⊕ (A ∧ C) ⊕ (B ∧ C)`. -/
def majNat (A B C : Nat) : Nat := (A &&& B) ^^^ ((A &&& C) ^^^ (B &&& C))

theorem oddHalf_three_spread (p : List Bool) : ∀ (q r : List Bool),
    p.length = q.length → p.length = r.length →
    oddHalf p.length
        (lebs2ip (spreadBits p) + lebs2ip (spreadBits q) + lebs2ip (spreadBits r))
      = lebs2ip (spreadBits (majList p q r)) := by
  induction p with
  | nil =>
    intro q r hq hr
    simp [spreadBits, lebs2ip, oddHalf, majList]
  | cons a p' ih =>
    intro q r hq hr
    cases q with
    | nil => simp at hq
    | cons b q' =>
    cases r with
    | nil => simp at hr
    | cons c r' =>
      rw [lebs2ip_spreadBits_cons, lebs2ip_spreadBits_cons, lebs2ip_spreadBits_cons]
      rw [show majList (a :: p') (b :: q') (c :: r')
          = (Bool.xor (a && b) (Bool.xor (a && c) (b && c))) :: majList p' q' r' by
        simp [majList]]
      rw [lebs2ip_spreadBits_cons, List.length_cons]
      rw [show (if a then 1 else 0) + 4 * lebs2ip (spreadBits p')
          + ((if b then 1 else 0) + 4 * lebs2ip (spreadBits q'))
          + ((if c then 1 else 0) + 4 * lebs2ip (spreadBits r'))
          = ((if a then 1 else 0) + (if b then 1 else 0) + (if c then 1 else 0))
            + 4 * (lebs2ip (spreadBits p') + lebs2ip (spreadBits q')
              + lebs2ip (spreadBits r')) by ring]
      rw [oddHalf_digit _ _ _ (by cases a <;> cases b <;> cases c <;> simp)]
      rw [← ih q' r' (by simpa using hq) (by simpa using hr)]
      congr 1
      cases a <;> cases b <;> cases c <;> simp

theorem lebs2ip_majList (p q r : List Bool) (hq : p.length = q.length)
    (hr : p.length = r.length) :
    lebs2ip (majList p q r) = majNat (lebs2ip p) (lebs2ip q) (lebs2ip r) := by
  apply Nat.eq_of_testBit_eq
  intro i
  rw [testBit_lebs2ip, majList]
  rw [getD_zipWith_bool Bool.xor rfl _ _ (by simp [List.length_zipWith]; omega) i]
  rw [getD_zipWith_bool Bool.and rfl _ _ hq i]
  rw [getD_zipWith_bool Bool.xor rfl _ _ (by simp [List.length_zipWith]; omega) i]
  rw [getD_zipWith_bool Bool.and rfl _ _ hr i]
  rw [getD_zipWith_bool Bool.and rfl _ _ (hq ▸ hr) i]
  rw [majNat, Nat.testBit_xor, Nat.testBit_xor, Nat.testBit_and, Nat.testBit_and,
    Nat.testBit_and, testBit_lebs2ip, testBit_lebs2ip, testBit_lebs2ip]

theorem spLv_eq_spread (l : List Bool) (h : l.length = 64) :
    lebs2ip (spreadBits l) = spread (lebs2ip l) := by
  rw [spread, ← h, i2lebsp_lebs2ip]

/-- `CompressionGate::s_ch` (table64): the selector times
`(spread E + spread F, lo/hi-combined) - (even + 2*odd witness)`. -/
def CompressionGate.s_ch (F : Type) [Field F]
    (s p0_even p0_odd p1_even p1_odd e_lo e_hi f_lo f_hi : F) : F :=
  s * ((e_lo + f_lo + (e_hi + f_hi) * 2 ^ 64)
    - ((p0_even + p1_even * 2 ^ 64) + (p0_odd + p1_odd * 2 ^ 64) * 2))

/-- `CompressionGate::s_maj` (table64): the selector times
`(spread A + spread B + spread C, lo/hi-combined) - (even + 2*odd witness)`. -/
def CompressionGate.s_maj (F : Type) [Field F]
    (s m0_even m0_odd m1_even m1_odd a_lo a_hi b_lo b_hi c_lo c_hi : F) : F :=
  s * (((a_lo + a_hi * 2 ^ 64) + (b_lo + b_hi * 2 ^ 64) + (c_lo + c_hi * 2 ^ 64))
    - ((m0_even + m1_even * 2 ^ 64) + (m0_odd + m1_odd * 2 ^ 64) * 2))

/-- Modelled from the spec: the util constant `MASK_EVEN_64`, ones at every
even bit position of a 64-bit spread half. -/
def MASK_EVEN_64 : Nat := 0x5555555555555555

/-- Modelled from the spec: ones at every even position of the full 128-bit
spread range. -/
def MASK_EVEN_128 : Nat := 0x55555555555555555555555555555555

/-- The first constraint of `CompressionGate::s_ch_neg` (table64):
`spread_e_neg_lo + spread_e_lo - MASK_EVEN_64`, times the selector. -/
def CompressionGate.s_ch_neg_lo_check (F : Type) [Field F]
    (s e_lo e_neg_lo : F) : F :=
  s * (e_neg_lo + e_lo - (MASK_EVEN_64 : Nat) * 1)

/-- The second constraint of `CompressionGate::s_ch_neg` (table64):
`spread_e_neg_hi + spread_e_hi - MASK_EVEN_64`, times the selector. -/
def CompressionGate.s_ch_neg_hi_check (F : Type) [Field F]
    (s e_hi e_neg_hi : F) : F :=
  s * (e_neg_hi + e_hi - (MASK_EVEN_64 : Nat) * 1)

/-- The main constraint of `CompressionGate::s_ch_neg` (table64):
`(spread ¬E + spread G, lo/hi-combined) - (even + 2*odd witness)`. -/
def CompressionGate.s_ch_neg (F : Type) [Field F]
    (s q0_even q0_odd q1_even q1_odd e_neg_lo e_neg_hi g_lo g_hi : F) : F :=
  s * ((e_neg_lo + g_lo + (e_neg_hi + g_hi) * 2 ^ 64)
    - ((q0_even + q1_even * 2 ^ 64) + (q0_odd + q1_odd * 2 ^ 64) * 2))

/-- C5 counterexample: at `E = F = 1` the even half of the even/odd split of
`spread E + spread F` is `0`, while the spread form of `E ∧ F` is `1`: the
conjunction appears in the odd half, not the even half. -/
theorem s_ch_even_half_counterexample :
    ¬ (evenHalf 64 (spread 1 + spread 1) = spread (1 &&& 1)) := by decide

/-- C5 (amended): in the even/odd split of `spread E + spread F`, every
base-4 digit is at most 2, the split recombines as even + 2*odd, the odd
half is the spread form of `E ∧ F`, and `s_ch` (selector active) vanishes
exactly when the lo/hi-combined sum equals the even + 2*odd witness. -/
theorem s_ch_split_spec (E F : Nat) (hE : E < 2 ^ 64) (hF : F < 2 ^ 64) :
    (∀ i, (spread E + spread F) / 4 ^ i % 4 ≤ 2)
    ∧ evenHalf 64 (spread E + spread F) + 2 * oddHalf 64 (spread E + spread F)
        = spread E + spread F
    ∧ oddHalf 64 (spread E + spread F) = spread (E &&& F)
    ∧ ∀ (Fld : Type) [Field Fld] (s p0e p0o p1e p1o elo ehi flo fhi : Fld), s ≠ 0 →
        (CompressionGate.s_ch Fld s p0e p0o p1e p1o elo ehi flo fhi = 0 ↔
          elo + flo + (ehi + fhi) * 2 ^ 64
            = (p0e + p1e * 2 ^ 64) + 2 * (p0o + p1o * 2 ^ 64)) := by
  have hlE : (i2lebsp 64 E).length = 64 := length_i2lebsp 64 E
  have hlF : (i2lebsp 64 F).length = 64 := length_i2lebsp 64 F
  have hbE := three_mul_lebs2ip_spreadBits (i2lebsp 64 E)
  have hbF := three_mul_lebs2ip_spreadBits (i2lebsp 64 F)
  rw [hlE] at hbE
  rw [hlF] at hbF
  refine ⟨?_, ?_, ?_, ?_⟩
  · intro i
    exact digit_two_spread (i2lebsp 64 E) (i2lebsp 64 F) (by rw [hlE, hlF]) i
  · exact evenHalf_add_two_mul_oddHalf 64 _
      (by simp only [spread]; norm_num at hbE hbF ⊢; omega)
  · have h := oddHalf_two_spread (i2lebsp 64 E) (i2lebsp 64 F) (by rw [hlE, hlF])
    rw [hlE] at h
    rw [spread, spread, h,
      spLv_eq_spread _ (by rw [List.length_zipWith, hlE, hlF]; omega),
      lebs2ip_zipWith_and _ _ (by rw [hlE, hlF]),
      lebs2ip_i2lebsp 64 E hE, lebs2ip_i2lebsp 64 F hF]
  · intro Fld _ s p0e p0o p1e p1o elo ehi flo fhi hs
    rw [CompressionGate.s_ch, mul_eq_zero, or_iff_right hs, sub_eq_zero]
    constructor <;> intro h <;> linear_combination h

/-- Witness for `s_ch_split_spec` at a concrete input. -/
theorem s_ch_split_spec_witness :
    oddHalf 64 (spread 6 + spread 10) = spread (6 &&& 10) :=
  (s_ch_split_spec 6 10 (by norm_num) (by norm_num)).2.2.1

/-- C6 counterexample: at `A = B = 1, C = 0` the even half of the even/odd
split of `spread A + spread B + spread C` is `0`, while the spread form of
`Maj(A,B,C)` is `1`: the majority appears in the odd half. -/
theorem s_maj_even_half_counterexample :
    ¬ (evenHalf 64 (spread 1 + spread 1 + spread 0) = spread (majNat 1 1 0)) := by decide

/-- C6 (amended): in the even/odd split of `spread A + spread B + spread C`,
every base-4 digit is at most 3, the split recombines as even + 2*odd, the
odd half is the spread form of `Maj(A,B,C)`, and `s_maj` (selector active)
vanishes exactly when the lo/hi-combined sum equals the even + 2*odd
witness. -/
theorem s_maj_split_spec (A B C : Nat) (hA : A < 2 ^ 64) (hB : B < 2 ^ 64)
    (hC : C < 2 ^ 64) :
    (∀ i, (spread A + spread B + spread C) / 4 ^ i % 4 ≤ 3)
    ∧ evenHalf 64 (spread A + spread B + spread C)
        + 2 * oddHalf 64 (spread A + spread B + spread C)
        = spread A + spread B + spread C
    ∧ oddHalf 64 (spread A + spread B + spread C) = spread (majNat A B C)
    ∧ ∀ (Fld : Type) [Field Fld]
        (s m0e m0o m1e m1o alo ahi blo bhi clo chi : Fld), s ≠ 0 →
        (CompressionGate.s_maj Fld s m0e m0o m1e m1o alo ahi blo bhi clo chi = 0 ↔
          (alo + ahi * 2 ^ 64) + (blo + bhi * 2 ^ 64) + (clo + chi * 2 ^ 64)
            = (m0e + m1e * 2 ^ 64) + 2 * (m0o + m1o * 2 ^ 64)) := by
  have hlA : (i2lebsp 64 A).length = 64 := length_i2lebsp 64 A
  have hlB : (i2lebsp 64 B).length = 64 := length_i2lebsp 64 B
  have hlC : (i2lebsp 64 C).length = 64 := length_i2lebsp 64 C
  have hbA := three_mul_lebs2ip_spreadBits (i2lebsp 64 A)
  have hbB := three_mul_lebs2ip_spreadBits (i2lebsp 64 B)
  have hbC := three_mul_lebs2ip_spreadBits (i2lebsp 64 C)
  rw [hlA] at hbA
  rw [hlB] at hbB
  rw [hlC] at hbC
  refine ⟨?_, ?_, ?_, ?_⟩
  · intro i
    exact digit_three_spread (i2lebsp 64 A) (i2lebsp 64 B) (i2lebsp 64 C)
      (by rw [hlA, hlB]) (by rw [hlA, hlC]) i
  · exact evenHalf_add_two_mul_oddHalf 64 _
      (by simp only [spread]; norm_num at hbA hbB hbC ⊢; omega)
  · have h := oddHalf_three_spread (i2lebsp 64 A) (i2lebsp 64 B) (i2lebsp 64 C)
      (by rw [hlA, hlB]) (by rw [hlA, hlC])
    rw [hlA] at h
    rw [spread, spread, spread, h,
      spLv_eq_spread _ (by simp [majList, List.length_zipWith, hlA, hlB, hlC]),
      lebs2ip_majList _ _ _ (by rw [hlA, hlB]) (by rw [hlA, hlC]),
      lebs2ip_i2lebsp 64 A hA, lebs2ip_i2lebsp 64 B hB, lebs2ip_i2lebsp 64 C hC]
  · intro Fld _ s m0e m0o m1e m1o alo ahi blo bhi clo chi hs
    rw [CompressionGate.s_maj, mul_eq_zero, or_iff_right hs, sub_eq_zero]
    constructor <;> intro h <;> linear_combination h

/-- Witness for `s_maj_split_spec` at a concrete input. -/
theorem s_maj_split_spec_witness :
    oddHalf 64 (spread 6 + spread 10 + spread 12) = spread (majNat 6 10 12) :=
  (s_maj_split_spec 6 10 12 (by norm_num) (by norm_num) (by norm_num)).2.2.1

theorem lebs2ip_map_not (l : List Bool) :
    lebs2ip (l.map (fun b => !b)) = 2 ^ l.length - 1 - lebs2ip l := by
  induction l with
  | nil => simp [lebs2ip]
  | cons b t ih =>
    have hv := lebs2ip_lt t
    simp only [List.map_cons, lebs2ip, List.length_cons, pow_succ, ih]
    cases b <;> simp <;> omega

theorem spLv_add_spLv_map_not (l : List Bool) :
    lebs2ip (spreadBits l) + lebs2ip (spreadBits (l.map (fun b => !b)))
      = lebs2ip (spreadBits (List.replicate l.length true)) := by
  induction l with
  | nil => simp [spreadBits, lebs2ip]
  | cons b t ih =>
    simp only [List.map_cons, List.length_cons, List.replicate_succ,
      lebs2ip_spreadBits_cons]
    cases b <;> simp <;> omega

theorem i2lebsp_complement (E : Nat) (hE : E < 2 ^ 64) :
    i2lebsp 64 (2 ^ 64 - 1 - E) = (i2lebsp 64 E).map (fun b => !b) := by
  have hlen : ((i2lebsp 64 E).map (fun b => !b)).length = 64 := by
    simp [length_i2lebsp]
  have hval : lebs2ip ((i2lebsp 64 E).map (fun b => !b)) = 2 ^ 64 - 1 - E := by
    rw [lebs2ip_map_not, length_i2lebsp, lebs2ip_i2lebsp 64 E hE]
  calc i2lebsp 64 (2 ^ 64 - 1 - E)
      = i2lebsp ((i2lebsp 64 E).map (fun b => !b)).length
          (lebs2ip ((i2lebsp 64 E).map (fun b => !b))) := by rw [hval, hlen]
    _ = (i2lebsp 64 E).map (fun b => !b) := i2lebsp_lebs2ip _

theorem spLv_replicate_true : lebs2ip (spreadBits (List.replicate 64 true)) = MASK_EVEN_128 := by
  decide

/-- C7: for every 64-bit `E`, the spread of the bitwise complement `¬E` is
`MASK_EVEN` minus the spread of `E` (ones at every even position of the
128-bit spread range), and the two mask constraints of `s_ch_neg` (selector
active) vanish exactly when `spread_e_neg = MASK_EVEN_64 - spread_e` on the
corresponding half. -/
theorem s_ch_neg_mask_spec (E : Nat) (hE : E < 2 ^ 64) :
    spread E ≤ MASK_EVEN_128
    ∧ spread (2 ^ 64 - 1 - E) = MASK_EVEN_128 - spread E
    ∧ ∀ (Fld : Type) [Field Fld] (s e_lo e_neg_lo e_hi e_neg_hi : Fld), s ≠ 0 →
        (CompressionGate.s_ch_neg_lo_check Fld s e_lo e_neg_lo = 0 ↔
          e_neg_lo = (MASK_EVEN_64 : Fld) - e_lo)
        ∧ (CompressionGate.s_ch_neg_hi_check Fld s e_hi e_neg_hi = 0 ↔
          e_neg_hi = (MASK_EVEN_64 : Fld) - e_hi) := by
  have hsum : spread E + spread (2 ^ 64 - 1 - E) = MASK_EVEN_128 := by
    rw [spread, spread, i2lebsp_complement E hE, ← spLv_replicate_true]
    have := spLv_add_spLv_map_not (i2lebsp 64 E)
    rw [length_i2lebsp] at this
    exact this
  refine ⟨by omega, by omega, ?_⟩
  intro Fld _ s e_lo e_neg_lo e_hi e_neg_hi hs
  constructor
  · rw [CompressionGate.s_ch_neg_lo_check, mul_eq_zero, or_iff_right hs, sub_eq_zero]
    constructor <;> intro h <;> linear_combination h
  · rw [CompressionGate.s_ch_neg_hi_check, mul_eq_zero, or_iff_right hs, sub_eq_zero]
    constructor <;> intro h <;> linear_combination h

/-- Witness for `s_ch_neg_mask_spec` at a concrete input. -/
theorem s_ch_neg_mask_spec_witness :
    spread (2 ^ 64 - 1 - 7) = MASK_EVEN_128 - spread 7 :=
  (s_ch_neg_mask_spec 7 (by norm_num)).2.1

/-- The (lo, hi) halves of the addends summed by `s_h_prime`, in the gate's
order: `H, Ch, ¬Ch-term, Σ1(E), K, W`. -/
def hPrimeAddends (F : Type) [Field F]
    (h_lo h_hi ch_lo ch_hi ch_neg_lo ch_neg_hi sigma_e_lo sigma_e_hi
     k_lo k_hi w_lo w_hi : F) : List (F × F) :=
  [(h_lo, h_hi), (ch_lo, ch_hi), (ch_neg_lo, ch_neg_hi), (sigma_e_lo, sigma_e_hi),
   (k_lo, k_hi), (w_lo, w_hi)]

/-- The (lo, hi) halves of the addends summed by `s_a_new`:
`Σ0(A), Maj(A,B,C), H'`. -/
def aNewAddends (F : Type) [Field F]
    (sigma_a_lo sigma_a_hi maj_abc_lo maj_abc_hi h_prime_lo h_prime_hi : F) :
    List (F × F) :=
  [(sigma_a_lo, sigma_a_hi), (maj_abc_lo, maj_abc_hi), (h_prime_lo, h_prime_hi)]

/-- The (lo, hi) halves of the addends summed by `s_e_new`: `H', D`. -/
def eNewAddends (F : Type) [Field F]
    (h_prime_lo h_prime_hi d_lo d_hi : F) : List (F × F) :=
  [(h_prime_lo, h_prime_hi), (d_lo, d_hi)]

/-- `CompressionGate::s_h_prime` (table64): the selector times
`sum - carry*2^64 - h_prime`, summing the six addends' lo and hi halves. -/
def CompressionGate.s_h_prime (F : Type) [Field F]
    (s h_prime_lo h_prime_hi h_prime_carry sigma_e_lo sigma_e_hi ch_lo ch_hi
     ch_neg_lo ch_neg_hi h_lo h_hi k_lo k_hi w_lo w_hi : F) : F :=
  s * (((h_lo + ch_lo + ch_neg_lo + sigma_e_lo + k_lo + w_lo)
      + (h_hi + ch_hi + ch_neg_hi + sigma_e_hi + k_hi + w_hi) * 2 ^ 32)
    - h_prime_carry * 2 ^ 64 - (h_prime_lo + h_prime_hi * 2 ^ 32))

/-- `CompressionGate::s_a_new` (table64): the selector times
`sum - carry*2^64 - a_new`, summing the three addends' lo and hi halves. -/
def CompressionGate.s_a_new (F : Type) [Field F]
    (s a_new_lo a_new_hi a_new_carry sigma_a_lo sigma_a_hi
     maj_abc_lo maj_abc_hi h_prime_lo h_prime_hi : F) : F :=
  s * (((sigma_a_lo + maj_abc_lo + h_prime_lo)
      + (sigma_a_hi + maj_abc_hi + h_prime_hi) * 2 ^ 32)
    - a_new_carry * 2 ^ 64 - (a_new_lo + a_new_hi * 2 ^ 32))

/-- `CompressionGate::s_e_new` (table64): the selector times
`sum - carry*2^64 - e_new`, summing the two addends' lo and hi halves. -/
def CompressionGate.s_e_new (F : Type) [Field F]
    (s e_new_lo e_new_hi e_new_carry d_lo d_hi h_prime_lo h_prime_hi : F) : F :=
  s * (((h_prime_lo + d_lo) + (h_prime_hi + d_hi) * 2 ^ 32)
    - e_new_carry * 2 ^ 64 - (e_new_lo + e_new_hi * 2 ^ 32))

/-- C8 counterexample: the `s_h_prime` addend list `H, Ch, ¬Ch, Σ1(E), K, W`
has six entries, not five. -/
theorem s_h_prime_addend_count_counterexample :
    ¬ ((hPrimeAddends ℚ 0 0 0 0 0 0 0 0 0 0 0 0).length = 5) := by decide

/-- C8 (amended): each additive state-update gate, with its selector active,
vanishes exactly when the sum of its listed addends' lo halves plus `2^32`
times the sum of the hi halves equals `carry*2^64 + result_lo +
result_hi*2^32`; the addends of `s_h_prime` are the six terms
`H, Ch, ¬Ch-term, Σ1(E), K, W`, those of `s_a_new` the three terms
`Σ0(A), Maj, H'`, and those of `s_e_new` the two terms `H', D`. -/
theorem additive_gate_equations (F : Type) [Field F]
    (s h_prime_lo h_prime_hi h_prime_carry sigma_e_lo sigma_e_hi ch_lo ch_hi
     ch_neg_lo ch_neg_hi h_lo h_hi k_lo k_hi w_lo w_hi
     a_new_lo a_new_hi a_new_carry sigma_a_lo sigma_a_hi maj_abc_lo maj_abc_hi
     e_new_lo e_new_hi e_new_carry d_lo d_hi : F) (hs : s ≠ 0) :
    (CompressionGate.s_h_prime F s h_prime_lo h_prime_hi h_prime_carry
        sigma_e_lo sigma_e_hi ch_lo ch_hi ch_neg_lo ch_neg_hi h_lo h_hi
        k_lo k_hi w_lo w_hi = 0 ↔
      ((hPrimeAddends F h_lo h_hi ch_lo ch_hi ch_neg_lo ch_neg_hi sigma_e_lo
          sigma_e_hi k_lo k_hi w_lo w_hi).map Prod.fst).sum
        + ((hPrimeAddends F h_lo h_hi ch_lo ch_hi ch_neg_lo ch_neg_hi sigma_e_lo
          sigma_e_hi k_lo k_hi w_lo w_hi).map Prod.snd).sum * 2 ^ 32
        = h_prime_carry * 2 ^ 64 + (h_prime_lo + h_prime_hi * 2 ^ 32))
    ∧ (CompressionGate.s_a_new F s a_new_lo a_new_hi a_new_carry
        sigma_a_lo sigma_a_hi maj_abc_lo maj_abc_hi h_prime_lo h_prime_hi = 0 ↔
      ((aNewAddends F sigma_a_lo sigma_a_hi maj_abc_lo maj_abc_hi
          h_prime_lo h_prime_hi).map Prod.fst).sum
        + ((aNewAddends F sigma_a_lo sigma_a_hi maj_abc_lo maj_abc_hi
          h_prime_lo h_prime_hi).map Prod.snd).sum * 2 ^ 32
        = a_new_carry * 2 ^ 64 + (a_new_lo + a_new_hi * 2 ^ 32))
    ∧ (CompressionGate.s_e_new F s e_new_lo e_new_hi e_new_carry
        d_lo d_hi h_prime_lo h_prime_hi = 0 ↔
      ((eNewAddends F h_prime_lo h_prime_hi d_lo d_hi).map Prod.fst).sum
        + ((eNewAddends F h_prime_lo h_prime_hi d_lo d_hi).map Prod.snd).sum * 2 ^ 32
        = e_new_carry * 2 ^ 64 + (e_new_lo + e_new_hi * 2 ^ 32))
    ∧ (hPrimeAddends F h_lo h_hi ch_lo ch_hi ch_neg_lo ch_neg_hi sigma_e_lo
        sigma_e_hi k_lo k_hi w_lo w_hi).length = 6
    ∧ (aNewAddends F sigma_a_lo sigma_a_hi maj_abc_lo maj_abc_hi
        h_prime_lo h_prime_hi).length = 3
    ∧ (eNewAddends F h_prime_lo h_prime_hi d_lo d_hi).length = 2 := by
  refine ⟨?_, ?_, ?_, rfl, rfl, rfl⟩
  · rw [CompressionGate.s_h_prime, mul_eq_zero, or_iff_right hs, sub_sub, sub_eq_zero]
    simp only [hPrimeAddends, List.map_cons, List.map_nil, List.sum_cons, List.sum_nil]
    constructor <;> intro h <;> linear_combination h
  · rw [CompressionGate.s_a_new, mul_eq_zero, or_iff_right hs, sub_sub, sub_eq_zero]
    simp only [aNewAddends, List.map_cons, List.map_nil, List.sum_cons, List.sum_nil]
    constructor <;> intro h <;> linear_combination h
  · rw [CompressionGate.s_e_new, mul_eq_zero, or_iff_right hs, sub_sub, sub_eq_zero]
    simp only [eNewAddends, List.map_cons, List.map_nil, List.sum_cons, List.sum_nil]
    constructor <;> intro h <;> linear_combination h

/-- Witness for `additive_gate_equations`: the active `s_e_new` gate at an
all-zero assignment vanishes. -/
theorem additive_gate_equations_witness :
    CompressionGate.s_e_new ℚ 1 0 0 0 0 0 0 0 = 0 :=
  (additive_gate_equations ℚ 1 0 0 0 0 0 0 0 0 0 0 0 0 0 0 0 0 0 0 0 0 0 0
    0 0 0 0 0 one_ne_zero).2.2.1.mpr (by norm_num [eNewAddends])

/-- Modelled from the spec: the integer sum of the six `s_h_prime` addends,
assembled from their 32-bit halves as the witness generator computes it. -/
def hPrimeSum (h_lo h_hi ch_lo ch_hi cn_lo cn_hi se_lo se_hi
    k_lo k_hi w_lo w_hi : Nat) : Nat :=
  (h_lo + ch_lo + cn_lo + se_lo + k_lo + w_lo)
    + (h_hi + ch_hi + cn_hi + se_hi + k_hi + w_hi) * 2 ^ 32

/-- Modelled from the spec: the honestly derived `h_prime` carry,
`floor(sum / 2^64)`. -/
def hPrimeCarry (h_lo h_hi ch_lo ch_hi cn_lo cn_hi se_lo se_hi
    k_lo k_hi w_lo w_hi : Nat) : Nat :=
  hPrimeSum h_lo h_hi ch_lo ch_hi cn_lo cn_hi se_lo se_hi k_lo k_hi w_lo w_hi / 2 ^ 64

/-- Modelled from the spec: the integer sum of the three `s_a_new` addends. -/
def aNewSum (sa_lo sa_hi mj_lo mj_hi hp_lo hp_hi : Nat) : Nat :=
  (sa_lo + mj_lo + hp_lo) + (sa_hi + mj_hi + hp_hi) * 2 ^ 32

/-- Modelled from the spec: the honestly derived `a_new` carry. -/
def aNewCarry (sa_lo sa_hi mj_lo mj_hi hp_lo hp_hi : Nat) : Nat :=
  aNewSum sa_lo sa_hi mj_lo mj_hi hp_lo hp_hi / 2 ^ 64

/-- Modelled from the spec: the integer sum of the two `s_e_new` addends. -/
def eNewSum (hp_lo hp_hi d_lo d_hi : Nat) : Nat :=
  (hp_lo + d_lo) + (hp_hi + d_hi) * 2 ^ 32

/-- Modelled from the spec: the honestly derived `e_new` carry. -/
def eNewCarry (hp_lo hp_hi d_lo d_hi : Nat) : Nat :=
  eNewSum hp_lo hp_hi d_lo d_hi / 2 ^ 64

/-- C9 counterexample: with all six `s_h_prime` addends equal to the genuine
64-bit value `2^64 - 1`, the honestly derived carry is `5`, which exceeds
`ceil(6/2) = 3` (and also `ceil(5/2) = 3`). -/
theorem additive_carry_counterexample :
    (2 ^ 32 - 1) + (2 ^ 32 - 1) * 2 ^ 32 < 2 ^ 64
    ∧ hPrimeCarry (2 ^ 32 - 1) (2 ^ 32 - 1) (2 ^ 32 - 1) (2 ^ 32 - 1) (2 ^ 32 - 1)
        (2 ^ 32 - 1) (2 ^ 32 - 1) (2 ^ 32 - 1) (2 ^ 32 - 1) (2 ^ 32 - 1)
        (2 ^ 32 - 1) (2 ^ 32 - 1) = 5
    ∧ ¬ (hPrimeCarry (2 ^ 32 - 1) (2 ^ 32 - 1) (2 ^ 32 - 1) (2 ^ 32 - 1) (2 ^ 32 - 1)
        (2 ^ 32 - 1) (2 ^ 32 - 1) (2 ^ 32 - 1) (2 ^ 32 - 1) (2 ^ 32 - 1)
        (2 ^ 32 - 1) (2 ^ 32 - 1) ≤ 3) := by
  refine ⟨by norm_num, ?_, ?_⟩ <;> simp only [hPrimeCarry, hPrimeSum] <;> norm_num

/-- C9 (amended): for genuine addends given as 32-bit halves, the honestly
derived carries are bounded by `n_addends - 1`: at most 5 for `s_h_prime`,
2 for `s_a_new`, 1 for `s_e_new`; and each gate, with its selector active,
is satisfied by the honest carry and the 64-bit truncated result. -/
theorem additive_carry_bounds
    (h_lo h_hi ch_lo ch_hi cn_lo cn_hi se_lo se_hi k_lo k_hi w_lo w_hi
     sa_lo sa_hi mj_lo mj_hi hp_lo hp_hi d_lo d_hi : Nat)
    (b1 : h_lo < 2 ^ 32) (b2 : h_hi < 2 ^ 32) (b3 : ch_lo < 2 ^ 32)
    (b4 : ch_hi < 2 ^ 32) (b5 : cn_lo < 2 ^ 32) (b6 : cn_hi < 2 ^ 32)
    (b7 : se_lo < 2 ^ 32) (b8 : se_hi < 2 ^ 32) (b9 : k_lo < 2 ^ 32)
    (b10 : k_hi < 2 ^ 32) (b11 : w_lo < 2 ^ 32) (b12 : w_hi < 2 ^ 32)
    (b13 : sa_lo < 2 ^ 32) (b14 : sa_hi < 2 ^ 32) (b15 : mj_lo < 2 ^ 32)
    (b16 : mj_hi < 2 ^ 32) (b17 : hp_lo < 2 ^ 32) (b18 : hp_hi < 2 ^ 32)
    (b19 : d_lo < 2 ^ 32) (b20 : d_hi < 2 ^ 32) :
    hPrimeCarry h_lo h_hi ch_lo ch_hi cn_lo cn_hi se_lo se_hi k_lo k_hi w_lo w_hi ≤ 5
    ∧ aNewCarry sa_lo sa_hi mj_lo mj_hi hp_lo hp_hi ≤ 2
    ∧ eNewCarry hp_lo hp_hi d_lo d_hi ≤ 1
    ∧ CompressionGate.s_h_prime ℚ 1
        ((hPrimeSum h_lo h_hi ch_lo ch_hi cn_lo cn_hi se_lo se_hi k_lo k_hi w_lo w_hi
          % 2 ^ 32 : Nat))
        ((hPrimeSum h_lo h_hi ch_lo ch_hi cn_lo cn_hi se_lo se_hi k_lo k_hi w_lo w_hi
          / 2 ^ 32 % 2 ^ 32 : Nat))
        ((hPrimeCarry h_lo h_hi ch_lo ch_hi cn_lo cn_hi se_lo se_hi k_lo k_hi w_lo w_hi
          : Nat))
        (se_lo : Nat) (se_hi : Nat) (ch_lo : Nat) (ch_hi : Nat) (cn_lo : Nat)
        (cn_hi : Nat) (h_lo : Nat) (h_hi : Nat) (k_lo : Nat) (k_hi : Nat)
        (w_lo : Nat) (w_hi : Nat) = 0
    ∧ CompressionGate.s_e_new ℚ 1
        ((eNewSum hp_lo hp_hi d_lo d_hi % 2 ^ 32 : Nat))
        ((eNewSum hp_lo hp_hi d_lo d_hi / 2 ^ 32 % 2 ^ 32 : Nat))
        ((eNewCarry hp_lo hp_hi d_lo d_hi : Nat))
        (d_lo : Nat) (d_hi : Nat) (hp_lo : Nat) (hp_hi : Nat) = 0 := by
  refine ⟨?_, ?_, ?_, ?_, ?_⟩
  · simp only [hPrimeCarry, hPrimeSum]; omega
  · simp only [aNewCarry, aNewSum]; omega
  · simp only [eNewCarry, eNewSum]; omega
  · have key : hPrimeSum h_lo h_hi ch_lo ch_hi cn_lo cn_hi se_lo se_hi k_lo k_hi w_lo w_hi
        = hPrimeCarry h_lo h_hi ch_lo ch_hi cn_lo cn_hi se_lo se_hi k_lo k_hi w_lo w_hi
            * 2 ^ 64
          + (hPrimeSum h_lo h_hi ch_lo ch_hi cn_lo cn_hi se_lo se_hi k_lo k_hi w_lo w_hi
              % 2 ^ 32
            + hPrimeSum h_lo h_hi ch_lo ch_hi cn_lo cn_hi se_lo se_hi k_lo k_hi w_lo w_hi
              / 2 ^ 32 % 2 ^ 32 * 2 ^ 32) := by
      simp only [hPrimeCarry, hPrimeSum]; omega
    rw [CompressionGate.s_h_prime]
    have key' := congrArg (fun n : Nat => (n : ℚ)) key
    simp only [hPrimeSum, hPrimeCarry] at key' ⊢
    push_cast at key' ⊢
    linear_combination key'
  · have key : eNewSum hp_lo hp_hi d_lo d_hi
        = eNewCarry hp_lo hp_hi d_lo d_hi * 2 ^ 64
          + (eNewSum hp_lo hp_hi d_lo d_hi % 2 ^ 32
            + eNewSum hp_lo hp_hi d_lo d_hi / 2 ^ 32 % 2 ^ 32 * 2 ^ 32) := by
      simp only [eNewCarry, eNewSum]; omega
    rw [CompressionGate.s_e_new]
    have key' := congrArg (fun n : Nat => (n : ℚ)) key
    simp only [eNewSum, eNewCarry] at key' ⊢
    push_cast at key' ⊢
    linear_combination key'

/-- Witness for `additive_carry_bounds` at the all-zero assignment. -/
theorem additive_carry_bounds_witness :
    hPrimeCarry 0 0 0 0 0 0 0 0 0 0 0 0 ≤ 5 :=
  (additive_carry_bounds 0 0 0 0 0 0 0 0 0 0 0 0 0 0 0 0 0 0 0 0
    (by norm_num) (by norm_num) (by norm_num) (by norm_num) (by norm_num)
    (by norm_num) (by norm_num) (by norm_num) (by norm_num) (by norm_num)
    (by norm_num) (by norm_num) (by norm_num) (by norm_num) (by norm_num)
    (by norm_num) (by norm_num) (by norm_num) (by norm_num) (by norm_num)).1

/-- Modelled from the spec: the message-schedule `σ0(x) = rotr1 ⊕ rotr8 ⊕ shr7`. -/
def lowerSigma0 (x : Nat) : Nat := rotr64 1 x ^^^ rotr64 8 x ^^^ x / 2 ^ 7

/-- Modelled from the spec: the message-schedule `σ1(x) = rotr19 ⊕ rotr61 ⊕ shr6`. -/
def lowerSigma1 (x : Nat) : Nat := rotr64 19 x ^^^ rotr64 61 x ^^^ x / 2 ^ 6

/-- Modelled from the spec: `Ch(E,F,G) = (E ∧ F) ⊕ (¬E ∧ G)`. -/
def chNat (e f g : Nat) : Nat := (e &&& f) ^^^ ((2 ^ 64 - 1 - e) &&& g)

/-- Modelled from the spec: the standard SHA-512 initialization vector. -/
def IV : List Nat :=
  [7640891576956012808, 13503953896175478587, 4354685564936845355,
   11912009170470909681, 5840696475078001361, 11170449401992604703,
   2270897969802886507, 6620516959819538809]

/-- Modelled from the spec: the 80 standard SHA-512 round constants. -/
def ROUND_CONSTANTS : List Nat :=
  [4794697086780616226, 8158064640168781261, 13096744586834688815,
   16840607885511220156, 4131703408338449720, 6480981068601479193,
   10538285296894168987, 12329834152419229976, 15566598209576043074,
   1334009975649890238, 2608012711638119052, 6128411473006802146,
   8268148722764581231, 9286055187155687089, 11230858885718282805,
   13951009754708518548, 16472876342353939154, 17275323862435702243,
   1135362057144423861, 2597628984639134821, 3308224258029322869,
   5365058923640841347, 6679025012923562964, 8573033837759648693,
   10970295158949994411, 12119686244451234320, 12683024718118986047,
   13788192230050041572, 14330467153632333762, 15395433587784984357,
   489312712824947311, 1452737877330783856, 2861767655752347644,
   3322285676063803686, 5560940570517711597, 5996557281743188959,
   7280758554555802590, 8532644243296465576, 9350256976987008742,
   10552545826968843579, 11727347734174303076, 12113106623233404929,
   14000437183269869457, 14369950271660146224, 15101387698204529176,
   15463397548674623760, 17586052441742319658, 1182934255886127544,
   1847814050463011016, 2177327727835720531, 2830643537854262169,
   3796741975233480872, 4115178125766777443, 5681478168544905931,
   6601373596472566643, 7507060721942968483, 8399075790359081724,
   8693463985226723168, 9568029438360202098, 10144078919501101548,
   10430055236837252648, 11840083180663258601, 13761210420658862357,
   14299343276471374635, 14566680578165727644, 15097957966210449927,
   16922976911328602910, 17689382322260857208, 500013540394364858,
   748580250866718886, 1242879168328830382, 1977374033974150939,
   2944078676154940804, 3659926193048069267, 4368137639120453308,
   4836135668995329356, 5532061633213252278, 6448918945643986474,
   6902733635092675308, 7801388544844847127]

/-- Modelled from the spec: the 16 words of the standard-padded one-block
message for the ASCII input "abc". -/
def W_ABC_INIT : List Nat :=
  [7017280570803617792, 0, 0, 0, 0, 0, 0, 0, 0, 0, 0, 0, 0, 0, 0, 24]

/-- Modelled from the spec: one message-schedule expansion step,
`W[t] = (σ1(W[t-2]) + W[t-7] + σ0(W[t-15]) + W[t-16]) mod 2^64`. -/
def scheduleStep (ws : List Nat) : List Nat :=
  ws ++ [(lowerSigma1 (ws.getD (ws.length - 2) 0) + ws.getD (ws.length - 7) 0
    + lowerSigma0 (ws.getD (ws.length - 15) 0) + ws.getD (ws.length - 16) 0) % 2 ^ 64]

/-- `n` expansion steps of the schedule from the padded "abc" block. -/
def scheduleN : Nat → List Nat
  | 0 => W_ABC_INIT
  | n + 1 => scheduleStep (scheduleN n)

/-- Modelled from the spec: the full 80-word message schedule for "abc". -/
def W_ABC : List Nat := scheduleN 64

/-- Modelled from the spec: one compression round, taking the state
`[A,B,C,D,E,F,G,H]` to the next state under constant `k` and word `w`. -/
def roundFn (st : List Nat) (k w : Nat) : List Nat :=
  match st with
  | [a, b, c, d, e, f, g, h] =>
    [(((h + upperSigma1 e + chNat e f g + k + w) % 2 ^ 64
        + (upperSigma0 a + majNat a b c) % 2 ^ 64) % 2 ^ 64),
      a, b, c,
      ((d + (h + upperSigma1 e + chNat e f g + k + w) % 2 ^ 64) % 2 ^ 64),
      e, f, g]
  | _ => st

/-- Modelled from the spec: the state after the 80 compression rounds from
the standard IV on the "abc" schedule. -/
def state80 : List Nat :=
  (List.zip ROUND_CONSTANTS W_ABC).foldl (fun st kw => roundFn st kw.1 kw.2) IV

/-- Modelled from the spec: `COMPRESSION_OUTPUT`, the published SHA-512
digest words of "abc". -/
def COMPRESSION_OUTPUT : List Nat :=
  [15974045371385084602, 14718171817514647857, 1362051152550133410,
   765311659573367706, 2419164356178592168, 3943530547489205181,
   4993722480620005390, 3069987439919277215]

/-- Modelled from the spec and the repository test: the digest words pinned
by the test's assertion `(digest_word + IV[idx]) mod 2^64 =
COMPRESSION_OUTPUT[idx]` — the unique 64-bit solutions of that equation. -/
def digestWords : List Nat :=
  List.zipWith (fun w iv => (w + (2 ^ 64 - iv)) % 2 ^ 64) COMPRESSION_OUTPUT IV

/-- C1 counterexample: the digest word pinned by the repository test is the
raw post-round-80 state word: it differs from the feed-forward sum
`state80 + IV` and from the published hash word, so the digest operation
itself does not apply the Davies-Meyer addition. -/
theorem digest_feed_forward_counterexample :
    ¬ (digestWords.getD 0 0 = (state80.getD 0 0 + IV.getD 0 0) % 2 ^ 64)
    ∧ ¬ (digestWords.getD 0 0 = COMPRESSION_OUTPUT.getD 0 0) := by decide

/-- C1 (amended): the feed-forward sum of the post-round-80 state and the
IV, word-wise mod `2^64`, equals the published SHA-512 hash of "abc", and
the digest words pinned by the test equal the raw post-round-80 state: the
Davies-Meyer addition is performed by the caller, not inside `digest`. -/
theorem digest_spec :
    List.zipWith (fun s iv => (s + iv) % 2 ^ 64) state80 IV = COMPRESSION_OUTPUT
    ∧ digestWords = state80 := by decide
